import Mathlib

/-!
Shallow embedding of the diff-analyzer module (`src/doi/analyzer/summarize.ts`):
change categorization, key-file ranking, intent inference and overview
generation, together with theorems checking the specified properties.

Categories and change types are modelled as `String` (as in the JavaScript
runtime, where they are string literals); regular-expression path patterns are
modelled as decidable character-list scanners; heuristic scores are modelled as
exact rationals.
-/

namespace Doi

/-! ## Data model -/

structure ChangedFile where
  path : String
  changeType : String
  linesAdded : Nat
  linesRemoved : Nat
deriving DecidableEq

structure CategorizedChange where
  category : String
  description : String
  files : List String
deriving DecidableEq

structure BranchCommit where
  message : String
deriving DecidableEq

structure DiffStats where
  linesAdded : Nat
  linesRemoved : Nat
deriving DecidableEq

structure GitContext where
  currentBranch : String
deriving DecidableEq

structure GitDiff where
  context : GitContext
  commits : List BranchCommit
  files : List ChangedFile
  stats : DiffStats

/-! ## String scanning primitives (embedding of the regex tests) -/

/-- `startsL p s` holds when the character list `p` is an initial segment of `s`. -/
def startsL : List Char → List Char → Bool
  | [], _ => true
  | _ :: _, [] => false
  | p :: ps, c :: cs => p == c && startsL ps cs

/-- `subL p s` holds when `p` occurs as a contiguous segment of `s`
(embedding of an unanchored regex literal). -/
def subL (pat : List Char) : List Char → Bool
  | [] => startsL pat []
  | c :: t => startsL pat (c :: t) || subL pat t

def sContains (s pat : String) : Bool := subL pat.toList s.toList

def sEndsWith (s pat : String) : Bool := startsL pat.toList.reverse s.toList.reverse

/-- ASCII lower-casing, modelling `toLowerCase` and the regex `i` flag. -/
def toLowerCase (s : String) : String := ⟨s.toList.map Char.toLower⟩

/-! ## File pattern matchers (`FILE_PATTERNS`) -/

/-- Regex `\.config\.(js|ts|json|yaml|yml)$`. -/
def patConfigDot (p : String) : Bool :=
  sEndsWith p ".config.js" || sEndsWith p ".config.ts" || sEndsWith p ".config.json" ||
    sEndsWith p ".config.yaml" || sEndsWith p ".config.yml"

/-- Regex `package\.json$`. -/
def patPackageJson (p : String) : Bool := sEndsWith p "package.json"

/-- Regex `tsconfig.*\.json$` at one position: `tsconfig`, then any characters
other than a newline, then `.json` ending the string. -/
def tsconfigHere (cs : List Char) : Bool :=
  startsL "tsconfig".toList cs &&
    (let rest := cs.drop 8
     startsL ".json".toList.reverse rest.reverse &&
       (rest.take (rest.length - 5)).all (fun c => c != '\n'))

def tsconfigScan : List Char → Bool
  | [] => tsconfigHere []
  | c :: t => tsconfigHere (c :: t) || tsconfigScan t

/-- Regex `tsconfig.*\.json$`. -/
def patTsconfig (p : String) : Bool := tsconfigScan p.toList

/-- Regex `\.env(\..+)?$` at one position: `.env` either ends the string or is
followed by `.` and at least one further character, none a newline, up to the
end of the string. -/
def envHere (cs : List Char) : Bool :=
  startsL ".env".toList cs &&
    (match cs.drop 4 with
     | [] => true
     | '.' :: body => !body.isEmpty && body.all (fun c => c != '\n')
     | _ => false)

def envScan : List Char → Bool
  | [] => envHere []
  | c :: t => envHere (c :: t) || envScan t

/-- Regex `\.env(\..+)?$`. -/
def patEnv (p : String) : Bool := envScan p.toList

/-- Regex `webpack|rollup|vite|esbuild` with the case-insensitive flag. -/
def patBundler (p : String) : Bool :=
  sContains (toLowerCase p) "webpack" || sContains (toLowerCase p) "rollup" ||
    sContains (toLowerCase p) "vite" || sContains (toLowerCase p) "esbuild"

/-- Regex `docker|compose` with the case-insensitive flag. -/
def patDocker (p : String) : Bool :=
  sContains (toLowerCase p) "docker" || sContains (toLowerCase p) "compose"

/-- Regex `\.github\/`. -/
def patGithubDir (p : String) : Bool := sContains p ".github/"

/-- Regex `Makefile$`. -/
def patMakefile (p : String) : Bool := sEndsWith p "Makefile"

/-- Regex `\.yml$`. -/
def patYml (p : String) : Bool := sEndsWith p ".yml"

/-- Regex `\.yaml$`. -/
def patYaml (p : String) : Bool := sEndsWith p ".yaml"

def configPatterns : List (String → Bool) :=
  [patConfigDot, patPackageJson, patTsconfig, patEnv, patBundler,
   patDocker, patGithubDir, patMakefile, patYml, patYaml]

/-- Regex `\.(test|spec)\.(js|ts|jsx|tsx)$`. -/
def patTestSpecExt (p : String) : Bool :=
  sEndsWith p ".test.js" || sEndsWith p ".test.ts" || sEndsWith p ".test.jsx" ||
    sEndsWith p ".test.tsx" || sEndsWith p ".spec.js" || sEndsWith p ".spec.ts" ||
    sEndsWith p ".spec.jsx" || sEndsWith p ".spec.tsx"

/-- Regex `__(tests|mocks)__\/`. -/
def patDunderDirs (p : String) : Bool :=
  sContains p "__tests__/" || sContains p "__mocks__/"

/-- Regex `\.test\.`. -/
def patDotTest (p : String) : Bool := sContains p ".test."

/-- Regex `\.spec\.`. -/
def patDotSpec (p : String) : Bool := sContains p ".spec."

/-- Regex `test\/`. -/
def patTestDir (p : String) : Bool := sContains p "test/"

/-- Regex `tests\/`. -/
def patTestsDir (p : String) : Bool := sContains p "tests/"

/-- Regex `jest\.config`. -/
def patJestConfig (p : String) : Bool := sContains p "jest.config"

/-- Regex `vitest\.config`. -/
def patVitestConfig (p : String) : Bool := sContains p "vitest.config"

def testingPatterns : List (String → Bool) :=
  [patTestSpecExt, patDunderDirs, patDotTest, patDotSpec,
   patTestDir, patTestsDir, patJestConfig, patVitestConfig]

/-- Regex `\.md$`. -/
def patMd (p : String) : Bool := sEndsWith p ".md"

/-- Regex `\.mdx$`. -/
def patMdx (p : String) : Bool := sEndsWith p ".mdx"

/-- Regex `docs?\/`. -/
def patDocsDir (p : String) : Bool := sContains p "doc/" || sContains p "docs/"

/-- Regex `README` with the case-insensitive flag. -/
def patReadme (p : String) : Bool := sContains (toLowerCase p) "readme"

/-- Regex `CHANGELOG` with the case-insensitive flag. -/
def patChangelog (p : String) : Bool := sContains (toLowerCase p) "changelog"

/-- Regex `LICENSE` with the case-insensitive flag. -/
def patLicense (p : String) : Bool := sContains (toLowerCase p) "license"

/-- Regex `CONTRIBUTING` with the case-insensitive flag. -/
def patContributing (p : String) : Bool := sContains (toLowerCase p) "contributing"

def documentationPatterns : List (String → Bool) :=
  [patMd, patMdx, patDocsDir, patReadme, patChangelog, patLicense, patContributing]

/-- The `FILE_PATTERNS` table, in declaration order.  The last four categories
have empty pattern lists: they are decided by change type, not by path. -/
def FILE_PATTERNS : List (String × List (String → Bool)) :=
  [("configuration", configPatterns),
   ("testing", testingPatterns),
   ("documentation", documentationPatterns),
   ("new-feature", []),
   ("modified-logic", []),
   ("refactoring", []),
   ("deletion", [])]

/-! ## Change categorization -/

/-- `categorizeFileByPath`: first category, in table declaration order, any of
whose patterns matches the path; `none` when no pattern matches. -/
def categorizeFileByPath (filePath : String) : Option String :=
  (FILE_PATTERNS.find? (fun entry => entry.2.any (fun pat => pat filePath))).map (fun e => e.1)

/-- `categorizeChange`: path patterns first, then change type, defaulting to
`modified-logic`. -/
def categorizeChange (file : ChangedFile) : String :=
  match categorizeFileByPath file.path with
  | some c => c
  | none =>
    match file.changeType with
    | "added" => "new-feature"
    | "deleted" => "deletion"
    | "renamed" => "refactoring"
    | _ => "modified-logic"

/-! ## Grouping and descriptions (`categorizeChanges`) -/

/-- Pluralization helper: the source writes the suffix inline as
`fileCount > 1 ? 's' : ''`. -/
def plural (n : Nat) : String := if 1 < n then "s" else ""

/-- The default arm of the description switch (`Changed {n} file(s)`),
extracted so that its unreachability can be stated. -/
def defaultCategoryDescription (files : List ChangedFile) : String :=
  "Changed " ++ toString files.length ++ " file" ++ plural files.length

/-- `generateCategoryDescription`: human-readable description of a category
group; `fileCount`, `totalAdded` and `totalRemoved` are computed over the group. -/
def generateCategoryDescription (category : String) (files : List ChangedFile) : String :=
  let fileCount := files.length
  let totalAdded := files.foldl (fun sum f => sum + f.linesAdded) 0
  let totalRemoved := files.foldl (fun sum f => sum + f.linesRemoved) 0
  match category with
  | "new-feature" =>
      "Added " ++ toString fileCount ++ " new file" ++ plural fileCount ++
        " (+" ++ toString totalAdded ++ " lines)"
  | "modified-logic" =>
      "Modified logic in " ++ toString fileCount ++ " file" ++ plural fileCount ++
        " (+" ++ toString totalAdded ++ "/-" ++ toString totalRemoved ++ " lines)"
  | "refactoring" =>
      "Refactored/renamed " ++ toString fileCount ++ " file" ++ plural fileCount
  | "deletion" =>
      "Removed " ++ toString fileCount ++ " file" ++ plural fileCount ++
        " (-" ++ toString totalRemoved ++ " lines)"
  | "configuration" =>
      "Updated configuration in " ++ toString fileCount ++ " file" ++ plural fileCount
  | "testing" =>
      (if 1 < fileCount then "Tests" else "Test") ++ " " ++
        (if files.any (fun f => f.changeType == "added") then "added" else "modified") ++
        " (+" ++ toString totalAdded ++ "/-" ++ toString totalRemoved ++ " lines)"
  | "documentation" =>
      "Documentation " ++
        (if files.any (fun f => f.changeType == "added") then "added" else "updated")
  | _ => defaultCategoryDescription files

/-- One step of the grouping `Map`: append `file` to the bucket of `category`,
creating the bucket at the end (key insertion order) when absent. -/
def addToGroup (grouped : List (String × List ChangedFile)) (category : String)
    (file : ChangedFile) : List (String × List ChangedFile) :=
  match grouped with
  | [] => [(category, [file])]
  | (c, fs) :: rest =>
    if c == category then (c, fs ++ [file]) :: rest
    else (c, fs) :: addToGroup rest category file

/-- Group files by category, buckets in key-insertion order as a JavaScript
`Map` iterates. -/
def groupByCategory (files : List ChangedFile) : List (String × List ChangedFile) :=
  files.foldl (fun g f => addToGroup g (categorizeChange f) f) []

/-- The fixed priority list the output is sorted by. -/
def categoryOrder : List String :=
  ["new-feature", "modified-logic", "refactoring", "deletion",
   "configuration", "testing", "documentation"]

/-- JavaScript `Array.prototype.indexOf`: index of the first occurrence,
`-1` when absent. -/
def idxOf (l : List String) (s : String) : Int :=
  match l with
  | [] => -1
  | x :: xs =>
    if x == s then 0
    else
      let r := idxOf xs s
      if r == -1 then -1 else r + 1

/-- Sort key of the comparator `categoryOrder.indexOf(a.category) - categoryOrder.indexOf(b.category)`. -/
def sortKey (c : CategorizedChange) : Int := idxOf categoryOrder c.category

/-- Stable insertion used to model the stable `Array.prototype.sort`. -/
def insertChange (x : CategorizedChange) : List CategorizedChange → List CategorizedChange
  | [] => [x]
  | y :: ys => if sortKey x ≤ sortKey y then x :: y :: ys else y :: insertChange x ys

/-- Stable sort of the grouped changes by priority index. -/
def sortChanges : List CategorizedChange → List CategorizedChange
  | [] => []
  | x :: xs => insertChange x (sortChanges xs)

/-- `categorizeChanges`: group files by category, attach descriptions and member
paths in original relative order, and sort by the fixed priority list. -/
def categorizeChanges (files : List ChangedFile) : List CategorizedChange :=
  let grouped := groupByCategory files
  let changes := grouped.map (fun g =>
    { category := g.1
      description := generateCategoryDescription g.1 g.2
      files := g.2.map (fun f => f.path) : CategorizedChange })
  sortChanges changes

/-! ## Key file identification (`identifyKeyFiles`) -/

/-- Regex `\.(ts|js|tsx|jsx|py|go|rs|java|cpp|c)$`. -/
def isSourceCodePath (p : String) : Bool :=
  sEndsWith p ".ts" || sEndsWith p ".js" || sEndsWith p ".tsx" || sEndsWith p ".jsx" ||
    sEndsWith p ".py" || sEndsWith p ".go" || sEndsWith p ".rs" || sEndsWith p ".java" ||
    sEndsWith p ".cpp" || sEndsWith p ".c"

/-- Regex `\.(test|spec)\.` used by the ranker. -/
def isTestFilePath (p : String) : Bool := sContains p ".test." || sContains p ".spec."

/-- The multiplicative importance heuristic, in source order, over exact
rationals standing in for the floating-point scores. -/
def scoreFile (file : ChangedFile) : ℚ :=
  let base : ℚ := ((file.linesAdded + file.linesRemoved : Nat) : ℚ)
  let s1 := if isSourceCodePath file.path then base * 1.5 else base
  let s2 := if file.changeType == "added" then s1 * 1.3 else s1
  let s3 := if isTestFilePath file.path then s2 * 0.7 else s2
  let s4 := if categorizeFileByPath file.path == some "configuration" then s3 * 0.5 else s3
  if categorizeFileByPath file.path == some "documentation" then s4 * 0.3 else s4

/-- The `scored` array: each file paired with its score. -/
def scoreFiles (files : List ChangedFile) : List (ChangedFile × ℚ) :=
  files.map (fun file => (file, scoreFile file))

/-- Stable descending insertion for the comparator `b.score - a.score`. -/
def insertScored (x : ChangedFile × ℚ) : List (ChangedFile × ℚ) → List (ChangedFile × ℚ)
  | [] => [x]
  | y :: ys => if y.2 ≤ x.2 then x :: y :: ys else y :: insertScored x ys

/-- Stable descending sort of the scored files. -/
def sortScored : List (ChangedFile × ℚ) → List (ChangedFile × ℚ)
  | [] => []
  | x :: xs => insertScored x (sortScored xs)

/-- `identifyKeyFiles`: sort by score (descending, stable) and return the
leading `limit` paths; the default limit is 5. -/
def identifyKeyFiles (files : List ChangedFile) (limit : Nat := 5) : List String :=
  ((sortScored (scoreFiles files)).take limit).map (fun s => s.1.path)

/-! ## Intent inference (`inferIntent`) -/

/-- Head of a character list is one of the delimiters `/`, `-`, `_`. -/
def delimHead : List Char → Bool
  | [] => false
  | c :: _ => c == '/' || c == '-' || c == '_'

/-- One alternative token followed by a delimiter, at the current position. -/
def tokHere (tok : List Char) (cs : List Char) : Bool :=
  startsL tok cs && delimHead (cs.drop tok.length)

/-- Any alternative token followed by a delimiter, at the current position. -/
def toksHere (toks : List (List Char)) (cs : List Char) : Bool :=
  toks.any (fun t => tokHere t cs)

/-- Unanchored scan for any alternative token followed by a delimiter. -/
def scanToks (toks : List (List Char)) : List Char → Bool
  | [] => false
  | c :: t => toksHere toks (c :: t) || scanToks toks t

/-- Case-insensitive match of regexes of the shape `tok[\/\-_]` with
alternative spellings of the token. -/
def matchTokens (toks : List String) (s : String) : Bool :=
  scanToks (toks.map (fun t => t.toList)) (toLowerCase s).toList

structure IntentEntry where
  pattern : String → Bool
  intent : String

/-- The `INTENT_PATTERNS` table, in declaration order. -/
def INTENT_PATTERNS : List IntentEntry :=
  [⟨matchTokens ["feat", "feature"], "add new functionality"⟩,
   ⟨matchTokens ["fix"], "fix a bug or issue"⟩,
   ⟨matchTokens ["bug"], "address a bug"⟩,
   ⟨matchTokens ["refactor"], "improve code structure"⟩,
   ⟨matchTokens ["perf", "performance"], "improve performance"⟩,
   ⟨matchTokens ["doc", "docs"], "update documentation"⟩,
   ⟨matchTokens ["test"], "add or improve tests"⟩,
   ⟨matchTokens ["chore"], "perform maintenance tasks"⟩,
   ⟨matchTokens ["hotfix"], "apply an urgent fix"⟩,
   ⟨matchTokens ["release"], "prepare a release"⟩,
   ⟨matchTokens ["dep", "deps"], "update dependencies"⟩,
   ⟨matchTokens ["upgrade"], "upgrade dependencies or tools"⟩,
   ⟨matchTokens ["migratio", "migration"], "perform a data or code migration"⟩]

/-- Intent of the first table entry whose pattern matches the branch name. -/
def findIntent (branchName : String) : Option String :=
  (INTENT_PATTERNS.find? (fun e => e.pattern branchName)).map (fun e => e.intent)

/-- A delimiter character of the split regex `[\/\-_]`. -/
def isDelimChar (c : Char) : Bool := c == '/' || c == '-' || c == '_'

/-- `branchName.split(/[\/\-_]/)`: split at every delimiter, keeping empty
pieces, as the JavaScript `split` does. -/
def splitDelims : List Char → List (List Char)
  | [] => [[]]
  | c :: t =>
    if isDelimChar c then [] :: splitDelims t
    else
      match splitDelims t with
      | [] => [[c]]
      | p :: ps => (c :: p) :: ps

/-- `join(' ')` over the split pieces. -/
def joinSpace : List (List Char) → List Char
  | [] => []
  | [p] => p
  | p :: ps => p ++ ' ' :: joinSpace ps

/-- `parts.slice(1).join(' ').replace(/[-_]/g, ' ')` over the split on
`/`, `-`, `_`. -/
def branchDescription (branchName : String) : String :=
  let parts := splitDelims branchName.toList
  ⟨(joinSpace (parts.drop 1)).map (fun c => if c == '-' || c == '_' then ' ' else c)⟩

/-- `inferIntent`: branch-name patterns first, then the oldest commit message,
then category-based fallbacks. -/
def inferIntent (diff : GitDiff) : String :=
  let branchName := diff.context.currentBranch
  let commits := diff.commits
  match findIntent branchName with
  | some intent =>
    let description := branchDescription branchName
    if 0 < description.length then intent ++ ": " ++ description else intent
  | none =>
    if 0 < commits.length then
      "Based on commits: " ++ (commits.getLastD ⟨""⟩).message
    else
      let changes := categorizeChanges diff.files
      let categories := changes.map (fun c => c.category)
      if categories.contains "new-feature" then "Add new functionality to the codebase"
      else if categories.contains "deletion" then "Remove unused code or features"
      else if categories.contains "refactoring" then "Improve code structure without changing behavior"
      else if categories.contains "configuration" then "Update project configuration"
      else "Make changes to the codebase"

/-! ## Overview generation (`generateOverview`) -/

/-- The size-descriptor bucketing of `totalLines`. -/
def sizeDescriptor (totalLines : Nat) : String :=
  if totalLines < 50 then "small"
  else if totalLines < 200 then "moderate"
  else if totalLines < 500 then "substantial"
  else "large"

/-- `generateOverview`: one-sentence overview built from the size descriptor,
the file count and the lower-cased inferred intent. -/
def generateOverview (diff : GitDiff) : String :=
  let fileCount := diff.files.length
  "A " ++ sizeDescriptor (diff.stats.linesAdded + diff.stats.linesRemoved) ++
    " change across " ++ toString fileCount ++ " file" ++
    (if fileCount != 1 then "s" else "") ++ " to " ++ toLowerCase (inferIntent diff) ++ "."

/-! ## Auxiliary definitions used to state the claims -/

/-- Two path lists share no member. -/
def disjointB (l1 l2 : List String) : Bool := l1.all (fun p => decide (p ∉ l2))

/-- All lists in the family are pairwise disjoint. -/
def pairwiseDisjointB : List (List String) → Bool
  | [] => true
  | l :: ls => ls.all (fun l2 => disjointB l l2) && pairwiseDisjointB ls

/-- Scored files paired with their original input position, used to state
stability of the ranking sort. -/
def insertScoredIdx (x : Nat × (ChangedFile × ℚ)) :
    List (Nat × (ChangedFile × ℚ)) → List (Nat × (ChangedFile × ℚ))
  | [] => [x]
  | y :: ys => if y.2.2 ≤ x.2.2 then x :: y :: ys else y :: insertScoredIdx x ys

/-- The ranking sort run on index-tagged scored files (same comparisons). -/
def sortScoredIdx : List (Nat × (ChangedFile × ℚ)) → List (Nat × (ChangedFile × ℚ))
  | [] => []
  | x :: xs => insertScoredIdx x (sortScoredIdx xs)

/-- Strict descending order by score with ties broken by ascending original
position: the characterization of a stable descending sort. -/
def scoreIdxLex (a b : Nat × (ChangedFile × ℚ)) : Prop :=
  b.2.2 < a.2.2 ∨ (a.2.2 = b.2.2 ∧ a.1 < b.1)

/-- The two-file scenario of the specification. -/
def scenarioInput : List ChangedFile :=
  [⟨"README.md", "modified", 5, 1⟩, ⟨"src/x.ts", "added", 40, 0⟩]

/-- An input in which the same path occurs under two change types. -/
def dupPathInput : List ChangedFile :=
  [⟨"x.ts", "added", 10, 0⟩, ⟨"x.ts", "deleted", 0, 10⟩]

/-- A diff whose branch prefix token is `hotfix`. -/
def hotfixDiff : GitDiff := ⟨⟨"hotfix/urgent-patch"⟩, [], [], ⟨0, 0⟩⟩

/-! ## Helper lemmas: grouping is a permutation of the input -/

theorem perm_flatten {α : Type} {l₁ l₂ : List (List α)} (h : l₁.Perm l₂) :
    l₁.flatten.Perm l₂.flatten := by
  induction h with
  | nil => exact List.Perm.refl _
  | cons x _ ih => simpa using ih.append_left x
  | swap x y l =>
    simp only [List.flatten_cons, ← List.append_assoc]
    exact (@List.perm_append_comm _ y x).append_right _
  | trans _ _ ih1 ih2 => exact ih1.trans ih2

theorem flatten_addToGroup (gs : List (String × List ChangedFile)) (c : String)
    (f : ChangedFile) :
    ((addToGroup gs c f).map (fun g => g.2)).flatten.Perm
      ((gs.map (fun g => g.2)).flatten ++ [f]) := by
  induction gs with
  | nil => simp [addToGroup]
  | cons g rest ih =>
    rcases g with ⟨c0, fs⟩
    by_cases h : (c0 == c) = true
    · simp only [addToGroup, if_pos h, List.map_cons, List.flatten_cons, List.append_assoc]
      exact (@List.perm_append_comm _ [f] _).append_left fs
    · simp only [addToGroup, if_neg h, List.map_cons, List.flatten_cons, List.append_assoc]
      exact ih.append_left fs

theorem flatten_groupFold (files : List ChangedFile) :
    ∀ gs : List (String × List ChangedFile),
      (((files.foldl (fun g f => addToGroup g (categorizeChange f) f) gs)).map
        (fun g => g.2)).flatten.Perm ((gs.map (fun g => g.2)).flatten ++ files) := by
  induction files with
  | nil => intro gs; simp
  | cons f fs ih =>
    intro gs
    simp only [List.foldl_cons]
    refine (ih (addToGroup gs (categorizeChange f) f)).trans ?_
    refine ((flatten_addToGroup gs (categorizeChange f) f).append_right fs).trans ?_
    rw [List.append_assoc]
    exact List.Perm.refl _

theorem flatten_groupByCategory (files : List ChangedFile) :
    ((groupByCategory files).map (fun g => g.2)).flatten.Perm files := by
  simpa [groupByCategory] using flatten_groupFold files []

/-! ## Helper lemmas: the priority sort is a stable-sorted permutation -/

theorem insertChange_perm (x : CategorizedChange) (l : List CategorizedChange) :
    (insertChange x l).Perm (x :: l) := by
  induction l with
  | nil => exact List.Perm.refl _
  | cons y ys ih =>
    by_cases h : sortKey x ≤ sortKey y
    · simp [insertChange, h]
    · simp only [insertChange, if_neg h]
      exact (ih.cons y).trans (List.Perm.swap x y ys)

theorem sortChanges_perm (l : List CategorizedChange) : (sortChanges l).Perm l := by
  induction l with
  | nil => exact List.Perm.refl _
  | cons x xs ih => exact (insertChange_perm x (sortChanges xs)).trans (ih.cons x)

theorem insertChange_pairwise {x : CategorizedChange} {l : List CategorizedChange}
    (h : List.Pairwise (fun a b => sortKey a ≤ sortKey b) l) :
    List.Pairwise (fun a b => sortKey a ≤ sortKey b) (insertChange x l) := by
  induction l with
  | nil => simp [insertChange]
  | cons y ys ih =>
    rcases List.pairwise_cons.mp h with ⟨hy, hys⟩
    by_cases hc : sortKey x ≤ sortKey y
    · simp only [insertChange, if_pos hc]
      refine List.pairwise_cons.mpr ⟨?_, h⟩
      intro z hz
      rcases List.mem_cons.mp hz with rfl | hz
      · exact hc
      · exact hc.trans (hy z hz)
    · simp only [insertChange, if_neg hc]
      refine List.pairwise_cons.mpr ⟨?_, ih hys⟩
      intro z hz
      rcases List.mem_cons.mp ((insertChange_perm x ys).mem_iff.mp hz) with rfl | hz
      · exact le_of_not_le hc
      · exact hy z hz

theorem sortChanges_pairwise (l : List CategorizedChange) :
    List.Pairwise (fun a b => sortKey a ≤ sortKey b) (sortChanges l) := by
  induction l with
  | nil => simp [sortChanges]
  | cons x xs ih => exact insertChange_pairwise ih

/-! ## Helper lemmas: group keys come from `categorizeChange` -/

theorem addToGroup_keys {gs : List (String × List ChangedFile)} {c : String}
    {f : ChangedFile} {k : String} (hk : k ∈ (addToGroup gs c f).map (fun g => g.1)) :
    k = c ∨ k ∈ gs.map (fun g => g.1) := by
  induction gs with
  | nil => simpa [addToGroup] using hk
  | cons g rest ih =>
    rcases g with ⟨c0, fs⟩
    by_cases h : (c0 == c) = true
    · simp only [addToGroup, if_pos h, List.map_cons] at hk
      rcases List.mem_cons.mp hk with rfl | hk
      · exact Or.inr (by simp)
      · exact Or.inr (by simp [hk])
    · simp only [addToGroup, if_neg h, List.map_cons] at hk
      rcases List.mem_cons.mp hk with rfl | hk
      · exact Or.inr (by simp)
      · rcases ih hk with h1 | h1
        · exact Or.inl h1
        · exact Or.inr (by simp [h1])

theorem groupFold_keys (files : List ChangedFile) :
    ∀ (gs : List (String × List ChangedFile)) (g : String × List ChangedFile),
      g ∈ files.foldl (fun g f => addToGroup g (categorizeChange f) f) gs →
      g.1 ∈ gs.map (fun g => g.1) ∨ ∃ f ∈ files, g.1 = categorizeChange f := by
  induction files with
  | nil => intro gs g hg; exact Or.inl (List.mem_map_of_mem _ hg)
  | cons f fs ih =>
    intro gs g hg
    simp only [List.foldl_cons] at hg
    rcases ih (addToGroup gs (categorizeChange f) f) g hg with h1 | h1
    · rcases addToGroup_keys h1 with h2 | h2
      · exact Or.inr ⟨f, by simp, h2⟩
      · exact Or.inl h2
    · rcases h1 with ⟨f', hf', he⟩
      exact Or.inr ⟨f', by simp [hf'], he⟩

theorem groupByCategory_keys {files : List ChangedFile} {g : String × List ChangedFile}
    (hg : g ∈ groupByCategory files) : ∃ f ∈ files, g.1 = categorizeChange f := by
  rcases groupFold_keys files [] g hg with h | h
  · simp at h
  · exact h

/-! ## Helper lemmas: the ranking sort -/

theorem insertScored_perm (x : ChangedFile × ℚ) (l : List (ChangedFile × ℚ)) :
    (insertScored x l).Perm (x :: l) := by
  induction l with
  | nil => exact List.Perm.refl _
  | cons y ys ih =>
    by_cases h : y.2 ≤ x.2
    · simp [insertScored, h]
    · simp only [insertScored, if_neg h]
      exact (ih.cons y).trans (List.Perm.swap x y ys)

theorem sortScored_perm (l : List (ChangedFile × ℚ)) : (sortScored l).Perm l := by
  induction l with
  | nil => exact List.Perm.refl _
  | cons x xs ih => exact (insertScored_perm x (sortScored xs)).trans (ih.cons x)

theorem insertScored_pairwise {x : ChangedFile × ℚ} {l : List (ChangedFile × ℚ)}
    (h : List.Pairwise (fun a b => b.2 ≤ a.2) l) :
    List.Pairwise (fun a b => b.2 ≤ a.2) (insertScored x l) := by
  induction l with
  | nil => simp [insertScored]
  | cons y ys ih =>
    rcases List.pairwise_cons.mp h with ⟨hy, hys⟩
    by_cases hc : y.2 ≤ x.2
    · simp only [insertScored, if_pos hc]
      refine List.pairwise_cons.mpr ⟨?_, h⟩
      intro z hz
      rcases List.mem_cons.mp hz with rfl | hz
      · exact hc
      · exact (hy z hz).trans hc
    · simp only [insertScored, if_neg hc]
      refine List.pairwise_cons.mpr ⟨?_, ih hys⟩
      intro z hz
      rcases List.mem_cons.mp ((insertScored_perm x ys).mem_iff.mp hz) with rfl | hz
      · exact le_of_not_le hc
      · exact hy z hz

theorem sortScored_pairwise (l : List (ChangedFile × ℚ)) :
    List.Pairwise (fun a b => b.2 ≤ a.2) (sortScored l) := by
  induction l with
  | nil => simp [sortScored]
  | cons x xs ih => exact insertScored_pairwise ih

theorem insertScoredIdx_perm (x : Nat × (ChangedFile × ℚ))
    (l : List (Nat × (ChangedFile × ℚ))) : (insertScoredIdx x l).Perm (x :: l) := by
  induction l with
  | nil => exact List.Perm.refl _
  | cons y ys ih =>
    by_cases h : y.2.2 ≤ x.2.2
    · simp [insertScoredIdx, h]
    · simp only [insertScoredIdx, if_neg h]
      exact (ih.cons y).trans (List.Perm.swap x y ys)

theorem sortScoredIdx_perm (l : List (Nat × (ChangedFile × ℚ))) :
    (sortScoredIdx l).Perm l := by
  induction l with
  | nil => exact List.Perm.refl _
  | cons x xs ih => exact (insertScoredIdx_perm x (sortScoredIdx xs)).trans (ih.cons x)

theorem map_insertScoredIdx (x : Nat × (ChangedFile × ℚ))
    (l : List (Nat × (ChangedFile × ℚ))) :
    (insertScoredIdx x l).map (fun p => p.2) = insertScored x.2 (l.map (fun p => p.2)) := by
  induction l with
  | nil => rfl
  | cons y ys ih =>
    by_cases h : y.2.2 ≤ x.2.2
    · simp [insertScoredIdx, insertScored, h]
    · simp [insertScoredIdx, insertScored, h, ih]

theorem map_sortScoredIdx (l : List (ChangedFile × ℚ)) :
    ∀ n, (sortScoredIdx (l.enumFrom n)).map (fun p => p.2) = sortScored l := by
  induction l with
  | nil => intro n; rfl
  | cons x xs ih =>
    intro n
    show (insertScoredIdx (n, x) (sortScoredIdx (xs.enumFrom (n + 1)))).map (fun p => p.2) =
      insertScored x (sortScored xs)
    rw [map_insertScoredIdx, ih (n + 1)]

theorem mem_enumFrom_lb {α : Type} (l : List α) (n : Nat) :
    ∀ y ∈ List.enumFrom n l, n ≤ y.1 := by
  induction l generalizing n with
  | nil => intro y hy; simp [List.enumFrom] at hy
  | cons x xs ih =>
    intro y hy
    rcases List.mem_cons.mp hy with rfl | hy
    · exact Nat.le_refl n
    · exact (Nat.le_succ n).trans (ih (n + 1) y hy)

theorem insertScoredIdx_pairwise {x : Nat × (ChangedFile × ℚ)}
    {l : List (Nat × (ChangedFile × ℚ))} (hidx : ∀ y ∈ l, x.1 < y.1)
    (h : List.Pairwise scoreIdxLex l) :
    List.Pairwise scoreIdxLex (insertScoredIdx x l) := by
  induction l with
  | nil => simp [insertScoredIdx]
  | cons y ys ih =>
    rcases List.pairwise_cons.mp h with ⟨hy, hys⟩
    by_cases hc : y.2.2 ≤ x.2.2
    · simp only [insertScoredIdx, if_pos hc]
      refine List.pairwise_cons.mpr ⟨?_, h⟩
      intro z hz
      rcases List.mem_cons.mp hz with hzy | hz
      · subst hzy
        rcases lt_or_eq_of_le hc with hlt | heq
        · exact Or.inl hlt
        · exact Or.inr ⟨heq.symm, hidx z (by simp)⟩
      · rcases hy z hz with hlt | ⟨heq, _⟩
        · exact Or.inl (lt_of_lt_of_le hlt hc)
        · rcases lt_or_eq_of_le hc with hlt2 | heq2
          · exact Or.inl (heq ▸ hlt2)
          · exact Or.inr ⟨heq2.symm.trans heq, hidx z (by simp [hz])⟩
    · simp only [insertScoredIdx, if_neg hc]
      refine List.pairwise_cons.mpr ⟨?_, ih (fun z hz => hidx z (by simp [hz])) hys⟩
      intro z hz
      rcases List.mem_cons.mp ((insertScoredIdx_perm x ys).mem_iff.mp hz) with rfl | hz
      · exact Or.inl (lt_of_not_le hc)
      · exact hy z hz

theorem sortScoredIdx_pairwise (l : List (ChangedFile × ℚ)) :
    ∀ n, List.Pairwise scoreIdxLex (sortScoredIdx (l.enumFrom n)) := by
  induction l with
  | nil => intro n; simp [List.enumFrom, sortScoredIdx]
  | cons x xs ih =>
    intro n
    show List.Pairwise scoreIdxLex
      (insertScoredIdx (n, x) (sortScoredIdx (xs.enumFrom (n + 1))))
    refine insertScoredIdx_pairwise ?_ (ih (n + 1))
    intro y hy
    have hmem : y ∈ xs.enumFrom (n + 1) :=
      (sortScoredIdx_perm (xs.enumFrom (n + 1))).mem_iff.mp hy
    exact Nat.lt_of_lt_of_le (Nat.lt_succ_self n) (mem_enumFrom_lb xs (n + 1) y hmem)

/-! ## Helper lemmas: `categorizeChanges` path multiset -/

theorem categorizeChanges_flatMap_perm (files : List ChangedFile) :
    ((categorizeChanges files).flatMap (fun c => c.files)).Perm
      (files.map (fun f => f.path)) := by
  have hsort : (categorizeChanges files).Perm
      ((groupByCategory files).map (fun g =>
        ({ category := g.1, description := generateCategoryDescription g.1 g.2,
           files := g.2.map (fun f => f.path) } : CategorizedChange))) :=
    sortChanges_perm _
  have h1 : ((categorizeChanges files).flatMap (fun c => c.files)).Perm
      (((groupByCategory files).map (fun g =>
        ({ category := g.1, description := generateCategoryDescription g.1 g.2,
           files := g.2.map (fun f => f.path) } : CategorizedChange))).flatMap
          (fun c => c.files)) := by
    rw [List.flatMap_def, List.flatMap_def]
    exact perm_flatten (hsort.map _)
  refine h1.trans ?_
  have h2 : (((groupByCategory files).map (fun g =>
      ({ category := g.1, description := generateCategoryDescription g.1 g.2,
         files := g.2.map (fun f => f.path) } : CategorizedChange))).flatMap
        (fun c => c.files)) =
      (((groupByCategory files).map (fun g => g.2)).flatten).map (fun f => f.path) := by
    rw [List.flatMap_def, List.map_map]
    rw [List.map_flatten]
    rw [List.map_map]
    rfl
  rw [h2]
  exact (flatten_groupByCategory files).map _

/-! ## Helper lemmas: any `hotfix` occurrence is also a `fix` occurrence -/

theorem scanToks_hotfix_imp_fix (cs : List Char) :
    scanToks [['h', 'o', 't', 'f', 'i', 'x']] cs = true →
    scanToks [['f', 'i', 'x']] cs = true := by
  induction cs with
  | nil => intro h; simp [scanToks] at h
  | cons c t ih =>
    intro h
    simp only [scanToks, Bool.or_eq_true] at h ⊢
    rcases h with h | h
    · simp only [toksHere, List.any_cons, List.any_nil, Bool.or_false, tokHere,
        Bool.and_eq_true] at h
      obtain ⟨hs, hd⟩ := h
      rcases t with _ | ⟨c2, t⟩
      · simp [startsL] at hs
      rcases t with _ | ⟨c3, t⟩
      · simp [startsL] at hs
      rcases t with _ | ⟨c4, t⟩
      · simp [startsL] at hs
      rcases t with _ | ⟨c5, t⟩
      · simp [startsL] at hs
      rcases t with _ | ⟨c6, t⟩
      · simp [startsL] at hs
      simp only [startsL, Bool.and_eq_true, beq_iff_eq] at hs
      obtain ⟨rfl, rfl, rfl, rfl, rfl, rfl, -⟩ := hs
      right
      have hd2 : delimHead t = true := by simpa using hd
      simp [scanToks, toksHere, tokHere, startsL, hd2]
    · exact Or.inr (ih h)

theorem matchTokens_hotfix_imp_fix (s : String) :
    matchTokens ["hotfix"] s = true → matchTokens ["fix"] s = true := by
  intro h
  exact scanToks_hotfix_imp_fix _ h

theorem findIntent_ne_hotfix (branch : String) :
    findIntent branch ≠ some "apply an urgent fix" := by
  intro hcontra
  by_cases h1 : matchTokens ["feat", "feature"] branch = true
  · simp [findIntent, INTENT_PATTERNS, List.find?_cons, h1] at hcontra
  by_cases h2 : matchTokens ["fix"] branch = true
  · simp [findIntent, INTENT_PATTERNS, List.find?_cons, h1, h2] at hcontra
  have h9 : ¬ matchTokens ["hotfix"] branch = true := by
    intro hh
    exact h2 (matchTokens_hotfix_imp_fix branch hh)
  by_cases h3 : matchTokens ["bug"] branch = true
  · simp [findIntent, INTENT_PATTERNS, List.find?_cons, h1, h2, h3] at hcontra
  by_cases h4 : matchTokens ["refactor"] branch = true
  · simp [findIntent, INTENT_PATTERNS, List.find?_cons, h1, h2, h3, h4] at hcontra
  by_cases h5 : matchTokens ["perf", "performance"] branch = true
  · simp [findIntent, INTENT_PATTERNS, List.find?_cons, h1, h2, h3, h4, h5] at hcontra
  by_cases h6 : matchTokens ["doc", "docs"] branch = true
  · simp [findIntent, INTENT_PATTERNS, List.find?_cons, h1, h2, h3, h4, h5, h6] at hcontra
  by_cases h7 : matchTokens ["test"] branch = true
  · simp [findIntent, INTENT_PATTERNS, List.find?_cons, h1, h2, h3, h4, h5, h6, h7] at hcontra
  by_cases h8 : matchTokens ["chore"] branch = true
  · simp [findIntent, INTENT_PATTERNS, List.find?_cons, h1, h2, h3, h4, h5, h6, h7,
      h8] at hcontra
  by_cases h10 : matchTokens ["release"] branch = true
  · simp [findIntent, INTENT_PATTERNS, List.find?_cons, h1, h2, h3, h4, h5, h6, h7, h8,
      h9, h10] at hcontra
  by_cases h11 : matchTokens ["dep", "deps"] branch = true
  · simp [findIntent, INTENT_PATTERNS, List.find?_cons, h1, h2, h3, h4, h5, h6, h7, h8,
      h9, h10, h11] at hcontra
  by_cases h12 : matchTokens ["upgrade"] branch = true
  · simp [findIntent, INTENT_PATTERNS, List.find?_cons, h1, h2, h3, h4, h5, h6, h7, h8,
      h9, h10, h11, h12] at hcontra
  by_cases h13 : matchTokens ["migratio", "migration"] branch = true
  · simp [findIntent, INTENT_PATTERNS, List.find?_cons, h1, h2, h3, h4, h5, h6, h7, h8,
      h9, h10, h11, h12, h13] at hcontra
  · simp [findIntent, INTENT_PATTERNS, List.find?_cons, h1, h2, h3, h4, h5, h6, h7, h8,
      h9, h10, h11, h12, h13] at hcontra

theorem findIntent_hotfix_gives_fix (branch : String)
    (hh : matchTokens ["hotfix"] branch = true)
    (hf : matchTokens ["feat", "feature"] branch = false) :
    findIntent branch = some "fix a bug or issue" := by
  have hfix : matchTokens ["fix"] branch = true := matchTokens_hotfix_imp_fix branch hh
  simp [findIntent, INTENT_PATTERNS, List.find?_cons, hf, hfix]

/-! ## Helper lemmas: disjointness from a duplicate-free flattening -/

theorem pairwiseDisjointB_of_pairwise {L : List (List String)}
    (h : List.Pairwise List.Disjoint L) : pairwiseDisjointB L = true := by
  induction L with
  | nil => rfl
  | cons l ls ih =>
    rcases List.pairwise_cons.mp h with ⟨hd, ht⟩
    simp only [pairwiseDisjointB, Bool.and_eq_true]
    refine ⟨?_, ih ht⟩
    rw [List.all_eq_true]
    intro l2 hl2
    simp only [disjointB, List.all_eq_true, decide_eq_true_eq]
    intro p hp
    exact hd l2 hl2 hp

/-! ## Helper lemmas: range of the categorizer -/

theorem categorizeFileByPath_cases (p : String) :
    categorizeFileByPath p = none ∨ categorizeFileByPath p = some "configuration" ∨
    categorizeFileByPath p = some "testing" ∨ categorizeFileByPath p = some "documentation" := by
  by_cases h1 : configPatterns.any (fun pat => pat p) = true
  · exact Or.inr (Or.inl (by simp [categorizeFileByPath, FILE_PATTERNS, List.find?_cons, h1]))
  by_cases h2 : testingPatterns.any (fun pat => pat p) = true
  · exact Or.inr (Or.inr (Or.inl
      (by simp [categorizeFileByPath, FILE_PATTERNS, List.find?_cons, h1, h2])))
  by_cases h3 : documentationPatterns.any (fun pat => pat p) = true
  · exact Or.inr (Or.inr (Or.inr
      (by simp [categorizeFileByPath, FILE_PATTERNS, List.find?_cons, h1, h2, h3])))
  · exact Or.inl (by simp [categorizeFileByPath, FILE_PATTERNS, List.find?_cons, h1, h2, h3])

theorem categorizeChange_in_order (f : ChangedFile) :
    categoryOrder.contains (categorizeChange f) = true := by
  rcases categorizeFileByPath_cases f.path with h | h | h | h
  · simp only [categorizeChange, h]
    split <;> decide
  all_goals simp [categorizeChange, h, categoryOrder]

theorem categorizeChanges_mem_shape {files : List ChangedFile} {ch : CategorizedChange}
    (hch : ch ∈ categorizeChanges files) :
    ∃ g ∈ groupByCategory files,
      ch = { category := g.1, description := generateCategoryDescription g.1 g.2,
             files := g.2.map (fun f => f.path) } := by
  have hch2 : ch ∈ (groupByCategory files).map (fun g =>
      ({ category := g.1, description := generateCategoryDescription g.1 g.2,
         files := g.2.map (fun f => f.path) } : CategorizedChange)) :=
    (sortChanges_perm _).mem_iff.mp hch
  rcases List.mem_map.mp hch2 with ⟨g, hg, he⟩
  exact ⟨g, hg, he.symm⟩

theorem categorizeChanges_categories_in_order (files : List ChangedFile) :
    ((categorizeChanges files).all (fun ch => categoryOrder.contains ch.category)) = true := by
  rw [List.all_eq_true]
  intro ch hch
  rcases categorizeChanges_mem_shape hch with ⟨g, hg, rfl⟩
  rcases groupByCategory_keys hg with ⟨f, _, he⟩
  show categoryOrder.contains g.1 = true
  rw [he]
  exact categorizeChange_in_order f

/-! ## Helper lemmas: distinguishing strings by their first character -/

theorem ne_of_data_head {s t : String} {c d : Char} (hs : s.data.head? = some c)
    (ht : t.data.head? = some d) (hcd : c ≠ d) : s ≠ t := by
  intro he
  rw [he, ht] at hs
  exact hcd (Option.some.inj hs).symm

theorem data_head_append {s : String} (t : String) {c : Char}
    (h : s.data.head? = some c) : (s ++ t).data.head? = some c := by
  rw [String.data_append]
  cases hs : s.data with
  | nil => rw [hs] at h; simp at h
  | cons a l =>
    rw [hs] at h
    simp only [List.cons_append, List.head?_cons] at h ⊢
    exact h

/-! ## Claim theorems -/

/-- C9: both analyzer entry points are total on the empty file list and return
empty results: `categorizeChanges []` is the empty category list and
`identifyKeyFiles [] limit` is the empty path list, for every limit. -/
theorem claim_C9_empty_input :
    categorizeChanges [] = [] ∧ ∀ limit : Nat, identifyKeyFiles [] limit = [] :=
  ⟨rfl, fun limit => by simp [identifyKeyFiles, scoreFiles, sortScored]⟩

/-- C7: `generateOverview` computes `totalLines = linesAdded + linesRemoved` and
selects the size descriptor `small` below 50, `moderate` below 200, `substantial`
below 500 and `large` otherwise; in particular 60 total lines yield `moderate`. -/
theorem claim_C7_overview_buckets :
    (∀ t : Nat, t < 50 → sizeDescriptor t = "small") ∧
    (∀ t : Nat, 50 ≤ t → t < 200 → sizeDescriptor t = "moderate") ∧
    (∀ t : Nat, 200 ≤ t → t < 500 → sizeDescriptor t = "substantial") ∧
    (∀ t : Nat, 500 ≤ t → sizeDescriptor t = "large") ∧
    sizeDescriptor 60 = "moderate" ∧
    (∀ d : GitDiff, generateOverview d =
      "A " ++ sizeDescriptor (d.stats.linesAdded + d.stats.linesRemoved) ++
        " change across " ++ toString d.files.length ++ " file" ++
        (if d.files.length != 1 then "s" else "") ++ " to " ++
        toLowerCase (inferIntent d) ++ ".") := by
  refine ⟨?_, ?_, ?_, ?_, by decide, fun d => rfl⟩
  · intro t h
    unfold sizeDescriptor
    rw [if_pos h]
  · intro t h1 h2
    unfold sizeDescriptor
    rw [if_neg (by omega), if_pos h2]
  · intro t h1 h2
    unfold sizeDescriptor
    rw [if_neg (by omega), if_neg (by omega), if_pos h2]
  · intro t h1
    unfold sizeDescriptor
    rw [if_neg (by omega), if_neg (by omega), if_neg (by omega)]

/-- Witness for C7: the bucket boundaries evaluated at 10, 60, 300 and 600. -/
theorem claim_C7_witness :
    sizeDescriptor 10 = "small" ∧ sizeDescriptor 60 = "moderate" ∧
    sizeDescriptor 300 = "substantial" ∧ sizeDescriptor 600 = "large" :=
  ⟨claim_C7_overview_buckets.1 10 (by decide),
   claim_C7_overview_buckets.2.1 60 (by decide) (by decide),
   claim_C7_overview_buckets.2.2.1 300 (by decide) (by decide),
   claim_C7_overview_buckets.2.2.2.1 600 (by decide)⟩

/-- C4: path-pattern matching strictly precedes change-type classification, the
pattern table being checked in declaration order (configuration, then testing,
then documentation), first match winning; in particular `src/app.test.ts` with
change type `added` is categorized `testing`, not `new-feature`. -/
theorem claim_C4_path_precedence :
    (∀ p : String, configPatterns.any (fun pat => pat p) = true →
      categorizeFileByPath p = some "configuration") ∧
    (∀ p : String, configPatterns.any (fun pat => pat p) = false →
      testingPatterns.any (fun pat => pat p) = true →
      categorizeFileByPath p = some "testing") ∧
    (∀ p : String, configPatterns.any (fun pat => pat p) = false →
      testingPatterns.any (fun pat => pat p) = false →
      documentationPatterns.any (fun pat => pat p) = true →
      categorizeFileByPath p = some "documentation") ∧
    (∀ p : String, configPatterns.any (fun pat => pat p) = false →
      testingPatterns.any (fun pat => pat p) = false →
      documentationPatterns.any (fun pat => pat p) = false →
      categorizeFileByPath p = none) ∧
    (∀ (f : ChangedFile) (c : String), categorizeFileByPath f.path = some c →
      categorizeChange f = c) ∧
    (∀ a r : Nat, categorizeChange ⟨"src/app.test.ts", "added", a, r⟩ = "testing") := by
  refine ⟨?_, ?_, ?_, ?_, ?_, fun a r => rfl⟩
  · intro p h1
    simp [categorizeFileByPath, FILE_PATTERNS, List.find?_cons, h1]
  · intro p h1 h2
    simp [categorizeFileByPath, FILE_PATTERNS, List.find?_cons, h1, h2]
  · intro p h1 h2 h3
    simp [categorizeFileByPath, FILE_PATTERNS, List.find?_cons, h1, h2, h3]
  · intro p h1 h2 h3
    simp [categorizeFileByPath, FILE_PATTERNS, List.find?_cons, h1, h2, h3]
  · intro f c h
    simp [categorizeChange, h]

/-- Witness for C4: the precedence evaluated at `src/app.test.ts`. -/
theorem claim_C4_witness :
    categorizeFileByPath "src/app.test.ts" = some "testing" ∧
    categorizeChange ⟨"src/app.test.ts", "added", 10, 2⟩ = "testing" :=
  ⟨claim_C4_path_precedence.2.1 "src/app.test.ts" (by decide) (by decide),
   claim_C4_path_precedence.2.2.2.2.2 10 2⟩

/-- C5: `categorizeChanges` orders its output by the fixed priority list and
emits only categories some input file maps to; on the two-file scenario it
returns exactly the `new-feature` entry for `src/x.ts` with description
`Added 1 new file (+40 lines)` followed by the `documentation` entry for
`README.md` with description `Documentation updated`. -/
theorem claim_C5_priority_order_scenario :
    (∀ files : List ChangedFile,
      List.Pairwise (fun a b => sortKey a ≤ sortKey b) (categorizeChanges files)) ∧
    (∀ files : List ChangedFile,
      ((categorizeChanges files).all
        (fun ch => files.any (fun f => categorizeChange f == ch.category))) = true) ∧
    categorizeChanges scenarioInput =
      [⟨"new-feature", "Added 1 new file (+40 lines)", ["src/x.ts"]⟩,
       ⟨"documentation", "Documentation updated", ["README.md"]⟩] := by
  refine ⟨?_, ?_, by decide⟩
  · intro files
    exact sortChanges_pairwise _
  · intro files
    rw [List.all_eq_true]
    intro ch hch
    rcases categorizeChanges_mem_shape hch with ⟨g, hg, rfl⟩
    rcases groupByCategory_keys hg with ⟨f, hf, he⟩
    rw [List.any_eq_true]
    exact ⟨f, hf, by simp [he]⟩

/-- C6: when the branch name matches no intent pattern and the commit list is
non-empty, `inferIntent` returns `Based on commits: ` followed by the message of
the last (oldest) commit. -/
theorem claim_C6_oldest_commit (ctx : GitContext) (cs : List BranchCommit)
    (c : BranchCommit) (files : List ChangedFile) (stats : DiffStats)
    (hbranch : findIntent ctx.currentBranch = none) :
    inferIntent ⟨ctx, cs ++ [c], files, stats⟩ = "Based on commits: " ++ c.message := by
  simp [inferIntent, hbranch, List.getLastD_concat]

/-- Witness for C6: branch `main` matches no pattern; the oldest of two commits
is quoted. -/
theorem claim_C6_witness :
    inferIntent ⟨⟨"main"⟩, [⟨"newest commit"⟩] ++ [⟨"oldest commit"⟩], [], ⟨0, 0⟩⟩ =
      "Based on commits: oldest commit" :=
  (claim_C6_oldest_commit ⟨"main"⟩ [⟨"newest commit"⟩] ⟨"oldest commit"⟩ [] ⟨0, 0⟩
    (by decide)).trans (by decide)

/-- C1 counterexample: on an input repeating the path `x.ts` under change types
`added` and `deleted`, the path lands in both the `new-feature` and the
`deletion` file list, so the per-category lists are not pairwise disjoint. -/
theorem claim_C1_counterexample :
    (categorizeChanges dupPathInput).map (fun c => c.files) = [["x.ts"], ["x.ts"]] ∧
    pairwiseDisjointB ((categorizeChanges dupPathInput).map (fun c => c.files)) = false := by
  constructor
  · decide
  · decide

/-- C1 (amended): for every input, the concatenation of the per-category file
lists is a permutation of the input path list (each input occurrence appears in
exactly one list); when the input paths are pairwise distinct the lists are in
addition pairwise disjoint and duplicate-free. -/
theorem claim_C1_partition (files : List ChangedFile) :
    ((categorizeChanges files).flatMap (fun c => c.files)).Perm
      (files.map (fun f => f.path)) ∧
    ((files.map (fun f => f.path)).Nodup →
      pairwiseDisjointB ((categorizeChanges files).map (fun c => c.files)) = true ∧
      ∀ l ∈ (categorizeChanges files).map (fun c => c.files), l.Nodup) := by
  refine ⟨categorizeChanges_flatMap_perm files, ?_⟩
  intro hnodup
  have hflat : ((categorizeChanges files).map (fun c => c.files)).flatten.Nodup := by
    have h2 : ((categorizeChanges files).flatMap (fun c => c.files)).Nodup :=
      (categorizeChanges_flatMap_perm files).nodup_iff.mpr hnodup
    rwa [List.flatMap_def] at h2
  rcases List.nodup_flatten.mp hflat with ⟨hins, hpair⟩
  exact ⟨pairwiseDisjointB_of_pairwise hpair, hins⟩

/-- Witness for C1: on the two-file scenario, whose paths are distinct, the
partition is a permutation of the inputs and the lists are pairwise disjoint. -/
theorem claim_C1_witness :
    ((categorizeChanges scenarioInput).flatMap (fun c => c.files)).Perm
      (scenarioInput.map (fun f => f.path)) ∧
    pairwiseDisjointB ((categorizeChanges scenarioInput).map (fun c => c.files)) = true :=
  ⟨(claim_C1_partition scenarioInput).1,
   ((claim_C1_partition scenarioInput).2 (by decide)).1⟩

/-- C2: `identifyKeyFiles files limit` returns `min limit (files.length)` paths,
each present in the input; it is the prefix of the stable descending sort of the
scored files, whose scores are non-increasing; the index-tagged run of the same
sort is ordered lexicographically (score descending, original position
ascending), so ties keep input order; the default limit is 5. -/
theorem claim_C2_identifyKeyFiles_contract (files : List ChangedFile) (limit : Nat) :
    (identifyKeyFiles files limit).length = min limit files.length ∧
    ((identifyKeyFiles files limit).all
      (fun p => (files.map (fun f => f.path)).contains p)) = true ∧
    identifyKeyFiles files limit =
      ((sortScored (scoreFiles files)).take limit).map (fun s => s.1.path) ∧
    List.Pairwise (fun a b : ChangedFile × ℚ => b.2 ≤ a.2)
      ((sortScored (scoreFiles files)).take limit) ∧
    (sortScoredIdx ((scoreFiles files).enum)).map (fun p => p.2) =
      sortScored (scoreFiles files) ∧
    List.Pairwise scoreIdxLex (sortScoredIdx ((scoreFiles files).enum)) ∧
    identifyKeyFiles files = identifyKeyFiles files 5 := by
  refine ⟨?_, ?_, rfl, ?_, ?_, ?_, rfl⟩
  · show (((sortScored (scoreFiles files)).take limit).map (fun s => s.1.path)).length = _
    rw [List.length_map, List.length_take, (sortScored_perm _).length_eq]
    simp [scoreFiles]
  · rw [List.all_eq_true]
    intro p hp
    rcases List.mem_map.mp hp with ⟨s, hs, rfl⟩
    have hs2 : s ∈ sortScored (scoreFiles files) := List.mem_of_mem_take hs
    have hs3 : s ∈ scoreFiles files := (sortScored_perm _).mem_iff.mp hs2
    rcases List.mem_map.mp hs3 with ⟨f, hf, rfl⟩
    have hmem : f.path ∈ files.map (fun f => f.path) := List.mem_map_of_mem _ hf
    simp [hmem]
  · exact List.Pairwise.sublist (List.take_sublist _ _) (sortScored_pairwise _)
  · exact map_sortScoredIdx _ 0
  · exact sortScoredIdx_pairwise _ 0

/-- C3 counterexample: the branch `hotfix/urgent-patch` is resolved by the
earlier `fix` table entry, not the `hotfix` one: `inferIntent` returns
`fix a bug or issue: urgent patch`, not `apply an urgent fix: urgent patch`. -/
theorem claim_C3_counterexample :
    inferIntent hotfixDiff = "fix a bug or issue: urgent patch" ∧
    inferIntent hotfixDiff ≠ "apply an urgent fix: urgent patch" := by
  constructor
  · decide
  · decide

/-- C3 (amended): the `hotfix` table entry is dead: a branch name containing
`hotfix` followed by a delimiter also contains `fix` followed by a delimiter, so
the earlier `fix` entry wins; `findIntent` never selects the intent
`apply an urgent fix`, and a `hotfix`-prefixed branch (matching no earlier
entry) yields `fix a bug or issue`, with `: description` appended from the
remaining segments; `hotfix/urgent-patch` yields
`fix a bug or issue: urgent patch`. -/
theorem claim_C3_hotfix_shadowed :
    (∀ branch : String, findIntent branch ≠ some "apply an urgent fix") ∧
    (∀ branch : String, matchTokens ["hotfix"] branch = true →
      matchTokens ["feat", "feature"] branch = false →
      findIntent branch = some "fix a bug or issue") ∧
    inferIntent hotfixDiff = "fix a bug or issue: urgent patch" :=
  ⟨findIntent_ne_hotfix, findIntent_hotfix_gives_fix, by decide⟩

/-- Witness for C3 (amended), evaluated at the branch `hotfix/urgent-patch`. -/
theorem claim_C3_witness :
    matchTokens ["hotfix"] "hotfix/urgent-patch" = true ∧
    matchTokens ["feat", "feature"] "hotfix/urgent-patch" = false ∧
    findIntent "hotfix/urgent-patch" = some "fix a bug or issue" ∧
    findIntent "hotfix/urgent-patch" ≠ some "apply an urgent fix" :=
  ⟨by decide, by decide,
   claim_C3_hotfix_shadowed.2.1 "hotfix/urgent-patch" (by decide) (by decide),
   claim_C3_hotfix_shadowed.1 "hotfix/urgent-patch"⟩

/-- C10: `categorizeChange` always returns one of the seven enumerated
categories, every entry emitted by `categorizeChanges` carries one of them, and
the default `Changed {n} file(s)` arm of `generateCategoryDescription` is taken
only for category strings outside the enumeration — so it is unreachable from
`categorizeChanges`. -/
theorem claim_C10_default_unreachable :
    (∀ f : ChangedFile, categoryOrder.contains (categorizeChange f) = true) ∧
    (∀ files : List ChangedFile,
      ((categorizeChanges files).all (fun ch => categoryOrder.contains ch.category)) = true) ∧
    (∀ (c : String) (fs : List ChangedFile), categoryOrder.contains c = false →
      generateCategoryDescription c fs = defaultCategoryDescription fs) := by
  refine ⟨categorizeChange_in_order, categorizeChanges_categories_in_order, ?_⟩
  intro c fs hc
  have hne : c ≠ "new-feature" ∧ c ≠ "modified-logic" ∧ c ≠ "refactoring" ∧
      c ≠ "deletion" ∧ c ≠ "configuration" ∧ c ≠ "testing" ∧ c ≠ "documentation" := by
    simpa [categoryOrder] using hc
  unfold generateCategoryDescription
  split
  all_goals first
    | rfl
    | (exfalso
       rcases hne with ⟨h1, h2, h3, h4, h5, h6, h7⟩
       simp at h1 h2 h3 h4 h5 h6 h7)

/-- Witness for C10: the closed categorizer value at a source file, and the
default description arm evaluated at a category string outside the
enumeration. -/
theorem claim_C10_witness :
    categoryOrder.contains (categorizeChange ⟨"src/app.ts", "added", 3, 1⟩) = true ∧
    generateCategoryDescription "unknown" [] = defaultCategoryDescription [] :=
  ⟨claim_C10_default_unreachable.1 ⟨"src/app.ts", "added", 3, 1⟩,
   claim_C10_default_unreachable.2.2 "unknown" [] (by decide)⟩

end Doi
